import Mathlib

/-!
Shallow embedding of the resume-sorter backend (src/backend/app.py) and proofs
of the specification claims.  Python strings are modelled as Lean `String`
(lists of characters); the character classes of the regular expressions and of
`str.lower` are modelled on their ASCII fragment, which is where the program
is exercised.  Machine floats of the similarity scorer are modelled as real
numbers.
-/

namespace ResumeSorter

/-! ## Basic character and string operations (Python semantics, ASCII fragment) -/

/-- Python `str.lower` on one character (ASCII fragment). -/
def pyLowerChar (c : Char) : Char :=
  if 'A' ≤ c ∧ c ≤ 'Z' then Char.ofNat (c.toNat + 32) else c

/-- Python `str.lower` (ASCII fragment). -/
def pyLower (s : String) : String := ⟨s.data.map pyLowerChar⟩

/-- Python `\d` (ASCII fragment): a decimal digit. -/
def isDigitChar (c : Char) : Bool := '0' ≤ c && c ≤ '9'

/-- Python `\s` and `str.split()` whitespace (ASCII fragment). -/
def isSpaceChar (c : Char) : Bool :=
  c == ' ' || c == '\t' || c == '\n' || c == '\r' || c == '\x0b' || c == '\x0c'

/-- Python `\w` (ASCII fragment): letter, digit or underscore. -/
def isWordChar (c : Char) : Bool := c.isAlphanum || c == '_'

/-- `isWordChar` on an optional character; out-of-range positions count as
non-word for the `\b` boundary assertion. -/
def isWordOpt : Option Char → Bool
  | none => false
  | some c => isWordChar c

/-- Does `needle` occur at the very start of `hay`? -/
def matchesAt : List Char → List Char → Bool
  | [], _ => true
  | _ :: _, [] => false
  | c :: cs, d :: ds => c == d && matchesAt cs ds

/-- Python substring containment `needle in hay` on character lists. -/
def containsSub (needle : List Char) : List Char → Bool
  | [] => needle.isEmpty
  | c :: cs => matchesAt needle (c :: cs) || containsSub needle cs

/-- Python `needle in hay` on strings. -/
def strContains (hay needle : String) : Bool := containsSub needle.data hay.data

/-- Python `s.endswith(t)`: `t` is a suffix of `s` (checked on reversals). -/
def pyEndsWith (s t : String) : Bool := t.data.reverse.isPrefixOf s.data.reverse

/-! ## extract_skills (app.py lines 66-85) -/

/-- The fixed skill vocabulary `skills_keywords` of `extract_skills`. -/
def skills_keywords : List String :=
  ["Python", "Java", "JavaScript", "C++", "C#", "Ruby", "PHP", "Swift",
   "React", "Angular", "Vue", "Node.js", "Django", "Flask", "Spring",
   "SQL", "MongoDB", "PostgreSQL", "MySQL", "Redis",
   "AWS", "Azure", "GCP", "Docker", "Kubernetes",
   "Machine Learning", "Deep Learning", "AI", "Data Analysis",
   "Git", "Agile", "Scrum", "DevOps", "CI/CD"]

/-- `extract_skills`: the accumulation loop over the vocabulary, appending each
skill whose lowercase form occurs in the lowercase text. -/
def extract_skills (text : String) : List String :=
  let text_lower := pyLower text
  skills_keywords.foldl
    (fun found skill => if strContains text_lower (pyLower skill) then found ++ [skill] else found)
    []

/-! ## extract_experience (app.py lines 87-100)

The two patterns are
  `(\d+)\+?\s*years?\s*(?:of)?\s*experience` and
  `experience\s*:\s*(\d+)\+?\s*years?`, both `re.IGNORECASE`.
In both patterns no greedy atom overlaps the atom that follows it (digits are
not followed by a digit-accepting atom, whitespace runs are never followed by
whitespace-accepting atoms, consuming the optional literals never removes a
viable alternative), so greedy matching without backtracking is equivalent to
the backtracking semantics of `re`, and the matchers below consume greedily. -/

/-- Consume an exact literal, or fail. -/
def eatLit : List Char → List Char → Option (List Char)
  | [], rest => some rest
  | _ :: _, [] => none
  | c :: cs, d :: ds => if c == d then eatLit cs ds else none

/-- Consume one optional character (`x?` for a single literal). -/
def eatOptChar (c : Char) : List Char → List Char
  | [] => []
  | d :: ds => if d == c then ds else d :: ds

/-- Consume `\s*`. -/
def eatSpaces (l : List Char) : List Char := l.dropWhile isSpaceChar

/-- Consume an optional literal (`(?:of)?`). -/
def eatOptLit (lit : List Char) (l : List Char) : List Char :=
  match eatLit lit l with
  | some r => r
  | none => l

/-- The integer value of a digit run, as computed by Python `int`. -/
def digitsToNat (ds : List Char) : Nat :=
  ds.foldl (fun n c => 10 * n + (c.toNat - 48)) 0

/-- Match `(\d+)\+?\s*years?\s*(?:of)?\s*experience` at the start of the
(lowercased) character list, returning the captured integer. -/
def matchP1 (cs : List Char) : Option Nat :=
  let ds := cs.takeWhile isDigitChar
  if ds.isEmpty then none
  else
    let r := cs.drop ds.length
    let r := eatOptChar '+' r
    let r := eatSpaces r
    match eatLit ['y', 'e', 'a', 'r'] r with
    | none => none
    | some r =>
      let r := eatOptChar 's' r
      let r := eatSpaces r
      let r := eatOptLit ['o', 'f'] r
      let r := eatSpaces r
      match eatLit ['e', 'x', 'p', 'e', 'r', 'i', 'e', 'n', 'c', 'e'] r with
      | none => none
      | some _ => some (digitsToNat ds)

/-- Match `experience\s*:\s*(\d+)\+?\s*years?` at the start of the
(lowercased) character list, returning the captured integer. -/
def matchP2 (cs : List Char) : Option Nat :=
  match eatLit ['e', 'x', 'p', 'e', 'r', 'i', 'e', 'n', 'c', 'e'] cs with
  | none => none
  | some r =>
    let r := eatSpaces r
    match r with
    | ':' :: r =>
      let r := eatSpaces r
      let ds := r.takeWhile isDigitChar
      if ds.isEmpty then none
      else
        let r2 := r.drop ds.length
        let r2 := eatOptChar '+' r2
        let r2 := eatSpaces r2
        match eatLit ['y', 'e', 'a', 'r'] r2 with
        | none => none
        | some _ => some (digitsToNat ds)
    | _ => none

/-- `re.search`: try the matcher at each position from left to right
(including the final empty position). -/
def reSearch (m : List Char → Option Nat) : List Char → Option Nat
  | [] => m []
  | c :: cs =>
    match m (c :: cs) with
    | some n => some n
    | none => reSearch m cs

/-- The loop `for pattern in patterns` of `extract_experience`. -/
def firstPatternMatch : List (List Char → Option Nat) → List Char → Option Nat
  | [], _ => none
  | p :: ps, cs =>
    match reSearch p cs with
    | some n => some n
    | none => firstPatternMatch ps cs

/-- `extract_experience`: the first pattern that matches anywhere wins;
no match at all yields `0`. -/
def extract_experience (text : String) : Nat :=
  match firstPatternMatch [matchP1, matchP2] (pyLower text).data with
  | some n => n
  | none => 0

/-! ## extract_education (app.py lines 102-124) -/

/-- The ordered keyword table `education_keywords` (a Python dict iterated in
insertion order). -/
def education_keywords : List (String × String) :=
  [("phd", "PhD"), ("ph.d", "PhD"), ("doctorate", "PhD"),
   ("master", "Master"), ("m.s.", "Master"), ("m.s", "Master"), ("mba", "Master"),
   ("bachelor", "Bachelor"), ("b.s.", "Bachelor"), ("b.s", "Bachelor"),
   ("b.tech", "Bachelor"), ("b.e.", "Bachelor")]

/-- The keyword loop of `extract_education`. -/
def eduScan : List (String × String) → String → String
  | [], _ => "Unknown"
  | kv :: rest, text_lower =>
    if strContains text_lower kv.1 then kv.2 else eduScan rest text_lower

/-- `extract_education`: first table keyword found as a substring of the
lowercase text wins; none found yields `"Unknown"`. -/
def extract_education (text : String) : String :=
  eduScan education_keywords (pyLower text)

/-! ## extract_email (app.py lines 126-130)

Pattern `\b[A-Za-z0-9._%+-]+@[A-Za-z0-9.-]+\.[A-Z|a-z]{2,}\b`.  The local
part cannot overlap `@`, so it is consumed greedily; the domain run and the
final letter run genuinely backtrack (`.` belongs to the domain class and the
trailing `\b` can reject the greedy letter run), which the searchers below
implement by trying lengths from longest to shortest, exactly as `re` does. -/

/-- The class `[A-Za-z0-9._%+-]` of the local part. -/
def isLocalChar (c : Char) : Bool :=
  c.isAlphanum || c == '.' || c == '_' || c == '%' || c == '+' || c == '-'

/-- The class `[A-Za-z0-9.-]` of the domain part. -/
def isDomChar (c : Char) : Bool := c.isAlphanum || c == '.' || c == '-'

/-- The class `[A-Z|a-z]` of the final run (it literally contains `|`). -/
def isTldChar (c : Char) : Bool :=
  ('A' ≤ c && c ≤ 'Z') || ('a' ≤ c && c ≤ 'z') || c == '|'

/-- Backtracking for `[A-Z|a-z]{2,}\b` over the suffix `m`: try to consume
`j` characters, for `j` descending to `2`, accepting when the trailing word
boundary holds. -/
def tldSearch (m : List Char) : Nat → Option Nat
  | 0 => none
  | j + 1 =>
    if j + 1 < 2 then none
    else
      match (m.take (j + 1)).getLast? with
      | none => none
      | some lastc =>
        if (isWordChar lastc) != (isWordOpt ((m.drop (j + 1)).head?)) then some (j + 1)
        else tldSearch m j

/-- Backtracking for `[A-Za-z0-9.-]+\.[A-Z|a-z]{2,}\b` over the suffix
`r2`: try a domain run of `k` characters, for `k` descending to `1`. -/
def domSearch (r2 : List Char) : Nat → Option (Nat × Nat)
  | 0 => none
  | k + 1 =>
    match r2.drop (k + 1) with
    | '.' :: m =>
      match tldSearch m ((m.takeWhile isTldChar).length) with
      | some j => some (k + 1, j)
      | none => domSearch r2 k
    | _ => domSearch r2 k

/-- Match the email pattern at the start of `cs`, where `prev` is the
character just before this position (for `\b`).  Returns the matched
substring (group 0). -/
def matchEmailAt (prev : Option Char) (cs : List Char) : Option (List Char) :=
  let lp := cs.takeWhile isLocalChar
  if lp.isEmpty then none
  else if (isWordOpt prev) == (isWordOpt cs.head?) then none
  else
    match cs.drop lp.length with
    | '@' :: r2 =>
      match domSearch r2 ((r2.takeWhile isDomChar).length) with
      | some (k, j) => some (lp ++ '@' :: (r2.take k) ++ '.' :: ((r2.drop (k + 1)).take j))
      | none => none
    | _ => none

/-- `re.search` for matchers that need the previous character and return the
matched substring. -/
def reSearchB (m : Option Char → List Char → Option (List Char)) :
    Option Char → List Char → Option (List Char)
  | prev, [] => m prev []
  | prev, c :: cs =>
    match m prev (c :: cs) with
    | some g => some g
    | none => reSearchB m (some c) cs

/-- `extract_email`: the first (leftmost) match of the email pattern. -/
def extract_email (text : String) : Option String :=
  (reSearchB matchEmailAt none text.data).map (fun g => ⟨g⟩)

/-! ## extract_phone (app.py lines 132-136)

Pattern `[\+\(]?[1-9][0-9 .\-\(\)]{8,}[0-9]`.  Consuming the optional leading
`+`/`(` is safe without backtracking because neither is in `[1-9]`; the body
run `{8,}` backtracks against the final `[0-9]`, implemented by trying run
lengths from longest to shortest. -/

/-- The class `[0-9 .\-\(\)]` of the phone body. -/
def isPhoneBody (c : Char) : Bool :=
  isDigitChar c || c == ' ' || c == '.' || c == '-' || c == '(' || c == ')'

/-- The class `[1-9]`. -/
def isNonzeroDigit (c : Char) : Bool := '1' ≤ c && c ≤ '9'

/-- Backtracking for `[0-9 .\-\(\)]{8,}[0-9]` over the suffix `rest2`:
try a body run of `k` characters, for `k` descending to `8`, accepting when
the next character is a digit. -/
def phoneSearchK (rest2 : List Char) : Nat → Option Nat
  | 0 => none
  | k + 1 =>
    if k + 1 < 8 then none
    else
      match (rest2.drop (k + 1)).head? with
      | some d => if isDigitChar d then some (k + 1) else phoneSearchK rest2 k
      | none => phoneSearchK rest2 k

/-- Match the phone pattern at the start of `cs`, returning the matched
substring (group 0). -/
def matchPhoneAt (cs : List Char) : Option (List Char) :=
  match cs with
  | [] => none
  | c :: rest =>
    let pr := if c == '+' || c == '(' then (([c] : List Char), rest) else ([], cs)
    match pr.2 with
    | [] => none
    | c1 :: rest2 =>
      if isNonzeroDigit c1 then
        match phoneSearchK rest2 ((rest2.takeWhile isPhoneBody).length) with
        | some k => some (pr.1 ++ c1 :: rest2.take (k + 1))
        | none => none
      else none

/-- `re.search` for matchers returning the matched substring. -/
def reSearchG (m : List Char → Option (List Char)) : List Char → Option (List Char)
  | [] => m []
  | c :: cs =>
    match m (c :: cs) with
    | some g => some g
    | none => reSearchG m cs

/-- `extract_phone`: the first (leftmost) match of the phone pattern. -/
def extract_phone (text : String) : Option String :=
  (reSearchG matchPhoneAt text.data).map (fun g => ⟨g⟩)

/-! ## extract_resume_info (app.py lines 55-64) -/

/-- The structured field bundle returned by `extract_resume_info`. -/
structure ResumeInfo where
  skills : List String
  experience : Nat
  education : String
  email : Option String
  phone : Option String
deriving DecidableEq, Repr

/-- `extract_resume_info`: run the five independent heuristics. -/
def extract_resume_info (text : String) : ResumeInfo :=
  { skills := extract_skills text
  , experience := extract_experience text
  , education := extract_education text
  , email := extract_email text
  , phone := extract_phone text }

/-! ## calculate_match_score (app.py lines 138-147)

`TfidfVectorizer(stop_words='english')` over the two-document corpus:
tokens are maximal word-character runs of length at least 2 of the lowercased
text (token pattern `\b\w\w+\b`), minus the frozen English stop-word list;
term weights are `tf * (ln((1+n)/(1+df)) + 1)` with `n = 2` (smooth idf);
rows are l2-normalised (zero norms kept as written by guarding with 1, as
`sklearn.preprocessing.normalize` does) and compared by dot product (cosine
similarity).  `fit_transform` raises its "empty vocabulary" error exactly
when no feature survives, which the bare `except` of the source converts to
the score `0`; the embedding expresses that error path as the emptiness test
on the vocabulary.  Floats are modelled as real numbers and `round(x, 2)` as
rounding `x * 100` to the nearest integer. -/

/-- The frozen `sklearn` English stop-word list. -/
def english_stop_words : List String :=
  ["a", "about", "above", "across", "after", "afterwards", "again", "against",
   "all", "almost", "alone", "along", "already", "also", "although", "always",
   "am", "among", "amongst", "amoungst", "amount", "an", "and", "another",
   "any", "anyhow", "anyone", "anything", "anyway", "anywhere", "are",
   "around", "as", "at", "back", "be", "became", "because", "become",
   "becomes", "becoming", "been", "before", "beforehand", "behind", "being",
   "below", "beside", "besides", "between", "beyond", "bill", "both",
   "bottom", "but", "by", "call", "can", "cannot", "cant", "co", "con",
   "could", "couldnt", "cry", "de", "describe", "detail", "do", "done",
   "down", "due", "during", "each", "eg", "eight", "either", "eleven",
   "else", "elsewhere", "empty", "enough", "etc", "even", "ever", "every",
   "everyone", "everything", "everywhere", "except", "few", "fifteen",
   "fifty", "fill", "find", "fire", "first", "five", "for", "former",
   "formerly", "forty", "found", "four", "from", "front", "full", "further",
   "get", "give", "go", "had", "has", "hasnt", "have", "he", "hence", "her",
   "here", "hereafter", "hereby", "herein", "hereupon", "hers", "herself",
   "him", "himself", "his", "how", "however", "hundred", "i", "ie", "if",
   "in", "inc", "indeed", "interest", "into", "is", "it", "its", "itself",
   "keep", "last", "latter", "latterly", "least", "less", "ltd", "made",
   "many", "may", "me", "meanwhile", "might", "mill", "mine", "more",
   "moreover", "most", "mostly", "move", "much", "must", "my", "myself",
   "name", "namely", "neither", "never", "nevertheless", "next", "nine",
   "no", "nobody", "none", "noone", "nor", "not", "nothing", "now",
   "nowhere", "of", "off", "often", "on", "once", "one", "only", "onto",
   "or", "other", "others", "otherwise", "our", "ours", "ourselves", "out",
   "over", "own", "part", "per", "perhaps", "please", "put", "rather", "re",
   "same", "see", "seem", "seemed", "seeming", "seems", "serious", "several",
   "she", "should", "show", "side", "since", "sincere", "six", "sixty", "so",
   "some", "somehow", "someone", "something", "sometime", "sometimes",
   "somewhere", "still", "such", "system", "take", "ten", "than", "that",
   "the", "their", "them", "themselves", "then", "thence", "there",
   "thereafter", "thereby", "therefore", "therein", "thereupon", "these",
   "they", "thick", "thin", "third", "this", "those", "though", "three",
   "through", "throughout", "thru", "thus", "to", "together", "too", "top",
   "toward", "towards", "twelve", "twenty", "two", "un", "under", "until",
   "up", "upon", "us", "very", "via", "was", "we", "well", "were", "what",
   "whatever", "when", "whence", "whenever", "where", "whereafter",
   "whereas", "whereby", "wherein", "whereupon", "wherever", "whether",
   "which", "while", "whither", "who", "whoever", "whole", "whom", "whose",
   "why", "will", "with", "within", "without", "would", "yet", "you",
   "your", "yours", "yourself", "yourselves"]

/-- Maximal runs of characters satisfying `p` (accumulator-based). -/
def runsAux (p : Char → Bool) : List Char → List Char → List (List Char)
  | cur, [] => if cur.isEmpty then [] else [cur.reverse]
  | cur, c :: cs =>
    if p c then runsAux p (c :: cur) cs
    else if cur.isEmpty then runsAux p [] cs
    else cur.reverse :: runsAux p [] cs

/-- The `TfidfVectorizer` analyzer: lowercase, keep maximal word-character
runs of length at least 2, drop stop words. -/
def tokenize (doc : String) : List String :=
  (((runsAux isWordChar [] (pyLower doc).data).filter
      (fun r => 2 ≤ r.length)).map (fun r => (⟨r⟩ : String))).filter
    (fun t => !english_stop_words.contains t)

/-- The fitted vocabulary over the two-document corpus (feature names are
sorted, duplicates removed). -/
def vocabList (d1 d2 : List String) : List String :=
  ((d1 ++ d2).dedup).mergeSort (fun a b => decide (a ≤ b))

/-- Raw term frequency of `w` in a tokenised document. -/
def tf (d : List String) (w : String) : Nat := d.count w

/-- Document frequency of `w` over the two-document corpus. -/
def df (d1 d2 : List String) (w : String) : Nat :=
  (if 0 < tf d1 w then 1 else 0) + (if 0 < tf d2 w then 1 else 0)

/-- Smooth inverse document frequency, `ln((1+n)/(1+df)) + 1` with `n = 2`. -/
noncomputable def idf (d1 d2 : List String) (w : String) : ℝ :=
  Real.log ((1 + 2) / (1 + (df d1 d2 w : ℝ))) + 1

/-- The (unnormalised) tf-idf row vector of document `d`, indexed by the
sorted vocabulary. -/
noncomputable def tfidfVec (d1 d2 d : List String) : List ℝ :=
  (vocabList d1 d2).map (fun w => (tf d w : ℝ) * idf d1 d2 w)

/-- Dot product of two row vectors. -/
noncomputable def dotProd (v w : List ℝ) : ℝ :=
  (List.zipWith (fun a b => a * b) v w).sum

/-- Euclidean norm of a row vector. -/
noncomputable def l2norm (v : List ℝ) : ℝ :=
  Real.sqrt ((v.map (fun x => x * x)).sum)

/-- `sklearn.preprocessing.normalize` replaces zero norms by 1. -/
noncomputable def normFactor (x : ℝ) : ℝ := if x = 0 then 1 else x

/-- Python `round(x, 2)` (to-nearest on the mathematical value). -/
noncomputable def round2 (x : ℝ) : ℝ := (round (x * 100) : ℤ) / 100

/-- `calculate_match_score`: cosine similarity of the two tf-idf rows, times
100, rounded to two decimals; the vectorization error path yields `0`. -/
noncomputable def calculate_match_score (resume_text job_description : String) : ℝ :=
  let d1 := tokenize resume_text
  let d2 := tokenize job_description
  if vocabList d1 d2 = [] then 0
  else
    let v1 := tfidfVec d1 d2 d1
    let v2 := tfidfVec d1 d2 d2
    round2 (100 * (dotProd v1 v2 / (normFactor (l2norm v1) * normFactor (l2norm v2))))

/-! ## The candidate collection and its operations -/

/-- A stored candidate record (the dict appended to `candidates_db`). -/
structure Candidate where
  id : Nat
  filename : String
  text : String
  skills : List String
  experience : Nat
  education : String
  email : Option String
  phone : Option String
deriving DecidableEq, Repr

/-- One entry of the ranked result list built by `search_candidates`. -/
structure SearchResult where
  id : Nat
  filename : String
  skills : List String
  experience : Nat
  education : String
  email : Option String
  match_score : ℝ

/-- The result dict built for one candidate in the search loop. -/
noncomputable def toSearchResult (jd : String) (c : Candidate) : SearchResult :=
  { id := c.id, filename := c.filename, skills := c.skills
  , experience := c.experience, education := c.education, email := c.email
  , match_score := calculate_match_score c.text jd }

/-- The descending-score ordering used by `results.sort(key=..., reverse=True)`. -/
def scoreGE (a b : SearchResult) : Prop := b.match_score ≤ a.match_score

noncomputable instance : DecidableRel scoreGE := fun _ _ => Real.decidableLE _ _

instance : IsTotal SearchResult scoreGE :=
  ⟨fun a b => le_total b.match_score a.match_score⟩

instance : IsTrans SearchResult scoreGE :=
  ⟨fun _ _ _ hab hbc => le_trans hbc hab⟩

/-- The ranking core of `search_candidates` (app.py lines 218-233): score
every candidate, then sort descending by score.  Python `list.sort` is a
stable sort, and a stable sort with a given total preorder is unique, so it
is computed here by the stable insertion sort. -/
noncomputable def rank_candidates (db : List Candidate) (jd : String) : List SearchResult :=
  List.insertionSort scoreGE (db.map (toSearchResult jd))

/-- The `search_candidates` endpoint: an absent `job_description` defaults to
the query; an empty query is rejected before ranking. -/
noncomputable def search_candidates (db : List Candidate) (query : String)
    (job_description : Option String) : Except String (List SearchResult) :=
  let jd := job_description.getD query
  if query = "" then Except.error "No search query provided"
  else Except.ok (rank_candidates db jd)

/-! ## get_analytics (app.py lines 241-256, experience breakdown) -/

/-- The experience-bucket loop of `get_analytics`: counts for the ranges
`0-5`, `5-10` (exclusive-above-5, inclusive-10) and `10+`. -/
def experience_ranges (db : List Candidate) : Nat × Nat × Nat :=
  db.foldl
    (fun acc c =>
      if c.experience ≤ 5 then (acc.1 + 1, acc.2.1, acc.2.2)
      else if c.experience ≤ 10 then (acc.1, acc.2.1 + 1, acc.2.2)
      else (acc.1, acc.2.1, acc.2.2 + 1))
    (0, 0, 0)

/-- The `get_analytics` endpoint, restricted to the parts the claims are
about: an empty collection yields the 404 error, otherwise the total count
and the experience breakdown. -/
def get_analytics (db : List Candidate) :
    Except String (Nat × (Nat × Nat × Nat)) :=
  if db.isEmpty then Except.error "No resumes uploaded yet"
  else Except.ok (db.length, experience_ranges db)

/-! ## upload_resumes (app.py lines 154-205) and reset (lines 304-309) -/

/-- An uploaded file, carrying the text that the (external) PDF/DOCX text
extractor would produce for it; the extractors themselves are library I/O
outside the embedded core. -/
structure UploadFile where
  filename : String
  content : String
deriving DecidableEq, Repr

/-- Characters kept by werkzeug's `_filename_ascii_strip_re`
(`[A-Za-z0-9_.-]`). -/
def keepChar (c : Char) : Bool :=
  c.isAlphanum || c == '_' || c == '.' || c == '-'

/-- The characters stripped from both ends by `secure_filename`. -/
def isDotUnderscore (c : Char) : Bool := c == '.' || c == '_'

/-- Python `str.split()`: maximal non-whitespace runs. -/
def splitWs (l : List Char) : List (List Char) :=
  runsAux (fun c => !isSpaceChar c) [] l

/-- Python `"_".join(parts)`. -/
def joinUnderscore : List (List Char) → List Char
  | [] => []
  | [g] => g
  | g :: g2 :: gs => g ++ '_' :: joinUnderscore (g2 :: gs)

/-- werkzeug `secure_filename` (ASCII fragment, posix): replace the path
separator by a space, collapse whitespace runs to underscores, drop
characters outside `[A-Za-z0-9_.-]`, strip leading and trailing dots and
underscores. -/
def secure_filename (filename : String) : String :=
  let s := filename.data.map (fun c => if c == '/' then ' ' else c)
  ⟨trimEnds ((joinUnderscore (splitWs s)).filter keepChar)⟩
where
  trimEnds (l : List Char) : List Char :=
    ((l.dropWhile isDotUnderscore).reverse.dropWhile isDotUnderscore).reverse

/-- Python `filename.rsplit('.', 1)[1]`: everything after the last dot. -/
def extAfterLastDot (s : String) : String :=
  ⟨(s.data.reverse.takeWhile (fun c => c != '.')).reverse⟩

/-- `ALLOWED_EXTENSIONS`. -/
def ALLOWED_EXTENSIONS : List String := ["pdf", "doc", "docx"]

/-- `allowed_file`: has a dot, and the lowercased extension is allowed. -/
def allowed_file (filename : String) : Bool :=
  filename.data.contains '.' &&
    ALLOWED_EXTENSIONS.contains (pyLower (extAfterLastDot filename))

/-- One entry of the `processed_resumes` response list. -/
structure ProcessedResume where
  filename : String
  skills : List String
  experience : Nat
  education : String
deriving DecidableEq, Repr

/-- The upload loop of `upload_resumes`: per file, the extension filter, the
secured filename, the `.pdf`/`.docx` dispatch (both dispatch branches extract
text, modelled by the text the file carries; any other extension hits the
`continue` and is skipped without a trace), the candidate appended with
`id = len(candidates_db) + 1`, and the processed-resumes entry.  Returns the
grown collection and the processed list; the response carries no error
channel for skipped files. -/
def processUploads (db : List Candidate) :
    List UploadFile → List Candidate × List ProcessedResume
  | [] => (db, [])
  | f :: fs =>
    if allowed_file f.filename then
      let fname := secure_filename f.filename
      if pyEndsWith fname ".pdf" || pyEndsWith fname ".docx" then
        let text := f.content
        let info := extract_resume_info text
        let cand : Candidate :=
          { id := db.length + 1, filename := fname, text := text
          , skills := info.skills, experience := info.experience
          , education := info.education, email := info.email
          , phone := info.phone }
        let res := processUploads (db ++ [cand]) fs
        (res.1,
          { filename := fname, skills := info.skills
          , experience := info.experience, education := info.education } :: res.2)
      else processUploads db fs
    else processUploads db fs

/-- A mutation of the global collection: one upload request or a reset. -/
inductive DbOp where
  | upload : List UploadFile → DbOp
  | reset : DbOp

/-- Apply one operation to the collection (`reset_database` reassigns the
global to the empty list). -/
def applyOp (db : List Candidate) : DbOp → List Candidate
  | DbOp.upload files => (processUploads db files).1
  | DbOp.reset => []

/-- Run a sequence of operations from the freshly initialised empty
collection. -/
def runOps (ops : List DbOp) : List Candidate := ops.foldl applyOp []

/-- A concrete candidate used to instantiate hypotheses of the theorems
below at a sample input. -/
def sampleCandidate : Candidate :=
  { id := 1, filename := "a.pdf", text := "", skills := [], experience := 5
  , education := "Unknown", email := none, phone := none }

/-! # Theorems -/

/-! ## Claim C1 -/

/-- Claim C1, counterexample: on the document whose extracted text is exactly
`"5 years experience Python Bachelor degree jane@x.com 555-1234"`, field
extraction does NOT produce the claimed bundle: the phone pattern requires at
least ten characters, `"555-1234"` has eight, so the phone field is absent. -/
theorem c1_counterexample :
    extract_resume_info "5 years experience Python Bachelor degree jane@x.com 555-1234" ≠
      { skills := ["Python"], experience := 5, education := "Bachelor"
      , email := some "jane@x.com", phone := some "555-1234" } := by
  decide

/-- Claim C1, amended: on that document, extraction produces skills
`[Python]`, experienceYears `5`, educationLevel `Bachelor`, email
`jane@x.com`, and no phone. -/
theorem c1_amended :
    extract_resume_info "5 years experience Python Bachelor degree jane@x.com 555-1234" =
      { skills := ["Python"], experience := 5, education := "Bachelor"
      , email := some "jane@x.com", phone := none } := by
  decide

/-! ## Claim C4 -/

/-- The skill-accumulation loop is a filter of the vocabulary. -/
theorem foldl_append_filter (p : String → Bool) :
    ∀ (ks acc : List String),
      ks.foldl (fun found k => if p k then found ++ [k] else found) acc =
        acc ++ ks.filter p := by
  intro ks
  induction ks with
  | nil => intro acc; simp
  | cons k ks ih =>
    intro acc
    by_cases h : p k <;> simp [List.foldl_cons, List.filter_cons, h, ih]

/-- Claim C4: `extract_skills` returns exactly the vocabulary entries whose
lowercase form occurs as a substring of the lowercase text, in vocabulary
declaration order (a sublist of the vocabulary) and without duplicates. -/
theorem extract_skills_spec (t : String) :
    extract_skills t =
      skills_keywords.filter (fun s => strContains (pyLower t) (pyLower s)) ∧
    List.Sublist (extract_skills t) skills_keywords ∧
    (extract_skills t).Nodup ∧
    (∀ s : String,
      s ∈ extract_skills t ↔
        s ∈ skills_keywords ∧ strContains (pyLower t) (pyLower s) = true) := by
  have hf : extract_skills t =
      skills_keywords.filter (fun s => strContains (pyLower t) (pyLower s)) := by
    simpa using foldl_append_filter (fun s => strContains (pyLower t) (pyLower s))
      skills_keywords []
  have hnodup : skills_keywords.Nodup := by decide
  refine ⟨hf, ?_, ?_, ?_⟩
  · rw [hf]; exact List.filter_sublist _
  · rw [hf]; exact hnodup.filter _
  · intro s; rw [hf, List.mem_filter]

/-! ## Claim C5 -/

/-- Claim C5: `extract_experience` tries the two case-insensitive patterns in
their fixed priority order and returns the integer captured by the first one
matching anywhere in the text, `0` when neither matches; in particular
`"5+ years of experience"` yields `5`, `"Experience: 12 years"` yields `12`,
and text with no such phrase yields `0`. -/
theorem extract_experience_spec :
    (∀ t : String,
      extract_experience t =
        match reSearch matchP1 (pyLower t).data with
        | some n => n
        | none =>
          match reSearch matchP2 (pyLower t).data with
          | some n => n
          | none => 0) ∧
    extract_experience "5+ years of experience" = 5 ∧
    extract_experience "Experience: 12 years" = 12 ∧
    extract_experience "worked in sales and marketing" = 0 := by
  refine ⟨fun t => ?_, by decide, by decide, by decide⟩
  unfold extract_experience
  rcases h1 : reSearch matchP1 (pyLower t).data with _ | n
  · rcases h2 : reSearch matchP2 (pyLower t).data with _ | m <;>
      simp [firstPatternMatch, h1, h2]
  · simp [firstPatternMatch, h1]

/-! ## Claim C6 -/

/-- The education keyword loop is a first-match lookup over the table. -/
theorem eduScan_eq_find (tl : String) :
    ∀ table : List (String × String),
      eduScan table tl =
        match table.find? (fun kv => strContains tl kv.1) with
        | some kv => kv.2
        | none => "Unknown" := by
  intro table
  induction table with
  | nil => rfl
  | cons kv rest ih =>
    by_cases h : strContains tl kv.1 <;>
      simp [eduScan, List.find?_cons, h, ih]

/-- Claim C6: `extract_education` returns the level of the first keyword in
the fixed table order whose lowercase form occurs anywhere in the lowercase
text, `"Unknown"` when none occurs; the table puts PhD keywords first, so any
text containing `"phd"` — in particular one containing both `"bachelor"` and
`"phd"` — yields `"PhD"`. -/
theorem extract_education_spec (t : String) :
    extract_education t =
      (match education_keywords.find? (fun kv => strContains (pyLower t) kv.1) with
       | some kv => kv.2
       | none => "Unknown") ∧
    (strContains (pyLower t) "phd" = true → extract_education t = "PhD") ∧
    ((∀ kv ∈ education_keywords, strContains (pyLower t) kv.1 = false) →
      extract_education t = "Unknown") := by
  refine ⟨eduScan_eq_find (pyLower t) education_keywords, ?_, ?_⟩
  · intro h
    simp [extract_education, education_keywords, eduScan, h]
  · intro h
    have : ∀ table : List (String × String),
        (∀ kv ∈ table, strContains (pyLower t) kv.1 = false) →
          eduScan table (pyLower t) = "Unknown" := by
      intro table
      induction table with
      | nil => intro _; rfl
      | cons kv rest ih =>
        intro hall
        have h0 := hall kv (List.mem_cons_self kv rest)
        simp [eduScan, h0]
        exact ih (fun kv2 h2 => hall kv2 (List.mem_cons_of_mem kv h2))
    exact this education_keywords h

/-- Claim C6, witness: a text containing both `"bachelor"` and `"phd"` is
classified `"PhD"`. -/
theorem extract_education_spec_witness :
    extract_education "bachelor degree and phd studies" = "PhD" :=
  (extract_education_spec "bachelor degree and phd studies").2.1 (by decide)

/-! ## Claims C2 and C3: the similarity scorer -/

/-- The fitted vocabulary is empty exactly when both tokenised documents are
empty (the condition under which `fit_transform` raises). -/
theorem vocab_nil_iff (d1 d2 : List String) :
    vocabList d1 d2 = [] ↔ d1 = [] ∧ d2 = [] := by
  constructor
  · intro h
    have hmem : ∀ w : String, w ∉ d1 ++ d2 := by
      intro w hw
      have : w ∈ vocabList d1 d2 := by
        unfold vocabList
        rw [List.mem_mergeSort, List.mem_dedup]
        exact hw
      rw [h] at this
      exact (List.not_mem_nil w) this
    have : d1 ++ d2 = [] := List.eq_nil_iff_forall_not_mem.mpr hmem
    exact List.append_eq_nil.mp this
  · rintro ⟨rfl, rfl⟩
    simp [vocabList]

/-- The degenerate branch of the scorer: with both documents tokenised to
nothing, the vectorizer raises and the score is `0`. -/
theorem score_zero_of_nil (t1 t2 : String)
    (h1 : tokenize t1 = []) (h2 : tokenize t2 = []) :
    calculate_match_score t1 t2 = 0 := by
  unfold calculate_match_score
  rw [h1, h2]
  simp [vocabList]

/-- Claim C2, counterexample: `"a"` is a non-empty text, identical to itself,
yet its only word run is shorter than the two-character token minimum, the
vocabulary is empty, and the score is `0`, not `100.00`. -/
theorem score_identical_counterexample :
    ("a" : String) ≠ "" ∧ calculate_match_score "a" "a" ≠ 100 := by
  refine ⟨by decide, ?_⟩
  rw [score_zero_of_nil "a" "a" (by decide) (by decide)]
  norm_num

/-- The dot product of a vector with itself is its sum of squares. -/
theorem dotProd_self (v : List ℝ) :
    dotProd v v = (v.map (fun x => x * x)).sum := by
  induction v with
  | nil => rfl
  | cons x xs ih =>
    simp only [dotProd, List.zipWith_cons_cons, List.map_cons, List.sum_cons] at ih ⊢
    rw [ih]

/-- Claim C2, amended: identical texts score `100.00` as soon as tokenization
keeps at least one term; identical texts whose tokenization is empty score
`0`. -/
theorem score_identical_spec (t : String) :
    (tokenize t ≠ [] → calculate_match_score t t = 100) ∧
    (tokenize t = [] → calculate_match_score t t = 0) := by
  refine ⟨?_, fun h => score_zero_of_nil t t h h⟩
  intro hne
  set d := tokenize t with hd
  have hV : ¬ vocabList d d = [] := by
    intro h
    exact hne ((vocab_nil_iff d d).mp h).1
  obtain ⟨w, hw⟩ := List.exists_mem_of_ne_nil d hne
  have hwV : w ∈ vocabList d d := by
    unfold vocabList
    rw [List.mem_mergeSort, List.mem_dedup]
    exact List.mem_append_left d hw
  -- the tf-idf entry of w is at least 1
  have htf : 0 < tf d w := List.count_pos_iff.mpr hw
  have hdf : df d d w = 2 := by simp [df, htf]
  have hidf : idf d d w = 1 := by
    unfold idf
    rw [hdf]
    norm_num
  have hentry : (1 : ℝ) ≤ (tf d w : ℝ) * idf d d w := by
    rw [hidf, mul_one]
    exact_mod_cast htf
  -- the sum of squared entries is positive
  set F : String → ℝ := fun u => (tf d u : ℝ) * idf d d u with hF
  set S : ℝ := (((vocabList d d).map F).map (fun x => x * x)).sum with hS
  have hmapmap : ((vocabList d d).map F).map (fun x => x * x) =
      (vocabList d d).map (fun u => F u * F u) := by
    rw [List.map_map]
    rfl
  have hmemsq : F w * F w ∈ ((vocabList d d).map F).map (fun x => x * x) := by
    rw [hmapmap]
    exact List.mem_map_of_mem _ hwV
  have hnonneg : ∀ x ∈ ((vocabList d d).map F).map (fun x => x * x), (0 : ℝ) ≤ x := by
    intro x hx
    rw [hmapmap] at hx
    obtain ⟨u, _, rfl⟩ := List.mem_map.mp hx
    exact mul_self_nonneg (F u)
  have hFw : (1 : ℝ) ≤ F w := hentry
  have hsq : (1 : ℝ) ≤ F w * F w := by nlinarith
  have hSpos : 0 < S := by
    have := List.single_le_sum hnonneg _ hmemsq
    rw [← hS] at this
    nlinarith
  -- cosine similarity of the (equal) rows is 1
  have hnorm : l2norm ((vocabList d d).map F) = Real.sqrt S := by
    rw [l2norm, hS]
  have hsqrtpos : 0 < Real.sqrt S := Real.sqrt_pos.mpr hSpos
  have hSdot : dotProd ((vocabList d d).map F) ((vocabList d d).map F) = S := by
    rw [dotProd_self, ← hS]
  have hnf : normFactor (Real.sqrt S) = Real.sqrt S := by
    rw [normFactor, if_neg (ne_of_gt hsqrtpos)]
  have hcos : S / (Real.sqrt S * Real.sqrt S) = 1 := by
    rw [Real.mul_self_sqrt (le_of_lt hSpos)]
    exact div_self (ne_of_gt hSpos)
  have hstep : calculate_match_score t t =
      (if vocabList d d = [] then (0 : ℝ) else
        round2 (100 * (dotProd ((vocabList d d).map F) ((vocabList d d).map F) /
          (normFactor (l2norm ((vocabList d d).map F)) *
            normFactor (l2norm ((vocabList d d).map F)))))) := rfl
  rw [hstep, if_neg hV, hSdot, hnorm, hnf, hcos, round2]
  have h4 : ((100 : ℝ) * 1) * 100 = ((10000 : ℤ) : ℝ) := by norm_num
  rw [h4, round_intCast]
  norm_num

/-- Claim C2, amended, witness: the text `"python"` tokenises to one term and
scores `100.00` against itself. -/
theorem score_identical_spec_witness :
    tokenize "python" ≠ [] ∧ calculate_match_score "python" "python" = 100 :=
  ⟨by decide, (score_identical_spec "python").1 (by decide)⟩

/-- Claim C3: vectorization fails exactly when both inputs reduce to an empty
vocabulary after tokenization and stop-word removal, and on that failure the
scorer returns `0` instead of propagating an error (it is a total function
into the reals). -/
theorem score_error_spec (t1 t2 : String) :
    (vocabList (tokenize t1) (tokenize t2) = [] ↔
      tokenize t1 = [] ∧ tokenize t2 = []) ∧
    (tokenize t1 = [] → tokenize t2 = [] → calculate_match_score t1 t2 = 0) :=
  ⟨vocab_nil_iff _ _, score_zero_of_nil t1 t2⟩

/-- Claim C3, witness: `"a"` (single-letter token dropped by the analyzer)
against the empty text scores `0`. -/
theorem score_error_spec_witness : calculate_match_score "a" "" = 0 :=
  (score_error_spec "a" "").2 (by decide) (by decide)

/-! ## Claim C7: ranking -/

/-- Inserting into a list commutes with filtering on one score level: the
ordered insert places the element before exactly the strictly smaller scores,
so the elements of any fixed score keep their relative order. -/
theorem filter_orderedInsert_score (s : ℝ) (a : SearchResult) :
    ∀ l : List SearchResult,
      (List.orderedInsert scoreGE a l).filter (fun x => decide (x.match_score = s)) =
        (a :: l).filter (fun x => decide (x.match_score = s)) := by
  intro l
  induction l with
  | nil => rfl
  | cons b t ih =>
    by_cases hab : scoreGE a b
    · rw [List.orderedInsert_of_le scoreGE t hab]
    · have hstep : List.orderedInsert scoreGE a (b :: t) =
          b :: List.orderedInsert scoreGE a t := by
        simp [List.orderedInsert, hab]
      by_cases hbs : b.match_score = s
      · have has : ¬ a.match_score = s := by
          intro he
          exact hab (show b.match_score ≤ a.match_score by rw [hbs, he])
        rw [hstep]
        simp [List.filter_cons, hbs, has, ih]
      · rw [hstep]
        simp [List.filter_cons, hbs, ih]

/-- Stability of the insertion sort, stated through filters on one score
level. -/
theorem filter_insertionSort_score (s : ℝ) :
    ∀ l : List SearchResult,
      (List.insertionSort scoreGE l).filter (fun x => decide (x.match_score = s)) =
        l.filter (fun x => decide (x.match_score = s)) := by
  intro l
  induction l with
  | nil => rfl
  | cons a t ih =>
    rw [List.insertionSort, filter_orderedInsert_score s a (List.insertionSort scoreGE t),
      List.filter_cons, List.filter_cons, ih]

/-- Claim C7: for a collection of `N` candidates and a query, ranking yields
exactly `N` results, sorted non-increasingly by `match_score`, with the
original collection order preserved among entries of equal score; with a
non-empty query the endpoint returns the ranked list, and the empty
collection yields the empty result list rather than an error. -/
theorem ranking_spec (db : List Candidate) (query jd : String) :
    (rank_candidates db jd).length = db.length ∧
    List.Sorted scoreGE (rank_candidates db jd) ∧
    (∀ s : ℝ,
      (rank_candidates db jd).filter (fun x => decide (x.match_score = s)) =
        (db.map (toSearchResult jd)).filter (fun x => decide (x.match_score = s))) ∧
    (query ≠ "" →
      search_candidates db query (some jd) = Except.ok (rank_candidates db jd)) ∧
    (db = [] → rank_candidates db jd = []) := by
  refine ⟨?_, ?_, ?_, ?_, ?_⟩
  · rw [rank_candidates, (List.perm_insertionSort scoreGE _).length_eq, List.length_map]
  · exact List.sorted_insertionSort scoreGE _
  · intro s
    rw [rank_candidates, filter_insertionSort_score]
  · intro hq
    simp [search_candidates, hq]
  · rintro rfl
    rfl

/-- Claim C7, witness: searching an empty collection with the non-empty query
`"q"` returns the empty ranked list, not an error. -/
theorem ranking_spec_witness :
    search_candidates ([] : List Candidate) "q" (some "j") = Except.ok [] := by
  have h := ranking_spec ([] : List Candidate) "q" "j"
  have h1 := h.2.2.2.1 (by decide)
  have h2 := h.2.2.2.2 rfl
  rw [h2] at h1
  exact h1

/-! ## Claim C8: analytics experience buckets -/

/-- Every candidate satisfies exactly one of the three bucket predicates. -/
theorem bucket_partition (x : Candidate) :
    (decide (x.experience ≤ 5) = true ∧
      decide (5 < x.experience ∧ x.experience ≤ 10) = false ∧
      decide (10 < x.experience) = false) ∨
    (decide (x.experience ≤ 5) = false ∧
      decide (5 < x.experience ∧ x.experience ≤ 10) = true ∧
      decide (10 < x.experience) = false) ∨
    (decide (x.experience ≤ 5) = false ∧
      decide (5 < x.experience ∧ x.experience ≤ 10) = false ∧
      decide (10 < x.experience) = true) := by
  by_cases h5 : x.experience ≤ 5
  · refine Or.inl ⟨?_, ?_, ?_⟩ <;> simp <;> omega
  · by_cases h10 : x.experience ≤ 10
    · refine Or.inr (Or.inl ⟨?_, ?_, ?_⟩) <;> simp <;> omega
    · refine Or.inr (Or.inr ⟨?_, ?_, ?_⟩) <;> simp <;> omega

/-- The bucket loop counts the three bucket predicates. -/
theorem experience_ranges_aux (db : List Candidate) :
    ∀ acc : Nat × Nat × Nat,
      db.foldl
        (fun acc c =>
          if c.experience ≤ 5 then (acc.1 + 1, acc.2.1, acc.2.2)
          else if c.experience ≤ 10 then (acc.1, acc.2.1 + 1, acc.2.2)
          else (acc.1, acc.2.1, acc.2.2 + 1)) acc =
      (acc.1 + db.countP (fun c => decide (c.experience ≤ 5)),
       acc.2.1 + db.countP (fun c => decide (5 < c.experience ∧ c.experience ≤ 10)),
       acc.2.2 + db.countP (fun c => decide (10 < c.experience))) := by
  induction db with
  | nil => intro acc; simp
  | cons d t ih =>
    intro acc
    rw [List.foldl_cons]
    rcases bucket_partition d with ⟨e1, e2, e3⟩ | ⟨e1, e2, e3⟩ | ⟨e1, e2, e3⟩
    · have h5 : d.experience ≤ 5 := of_decide_eq_true e1
      rw [if_pos h5, ih,
        List.countP_cons_of_pos _ t e1,
        List.countP_cons_of_neg _ t (ne_true_of_eq_false e2),
        List.countP_cons_of_neg _ t (ne_true_of_eq_false e3),
        Prod.mk.injEq, Prod.mk.injEq]
      dsimp only
      refine ⟨by omega, by omega, by omega⟩
    · have hq : 5 < d.experience ∧ d.experience ≤ 10 := of_decide_eq_true e2
      have h5 : ¬ d.experience ≤ 5 := by omega
      rw [if_neg h5, if_pos hq.2, ih,
        List.countP_cons_of_neg _ t (ne_true_of_eq_false e1),
        List.countP_cons_of_pos _ t e2,
        List.countP_cons_of_neg _ t (ne_true_of_eq_false e3),
        Prod.mk.injEq, Prod.mk.injEq]
      dsimp only
      refine ⟨by omega, by omega, by omega⟩
    · have hr : 10 < d.experience := of_decide_eq_true e3
      have h5 : ¬ d.experience ≤ 5 := by omega
      have h10 : ¬ d.experience ≤ 10 := by omega
      rw [if_neg h5, if_neg h10, ih,
        List.countP_cons_of_neg _ t (ne_true_of_eq_false e1),
        List.countP_cons_of_neg _ t (ne_true_of_eq_false e2),
        List.countP_cons_of_pos _ t e3,
        Prod.mk.injEq, Prod.mk.injEq]
      dsimp only
      refine ⟨by omega, by omega, by omega⟩

/-- The three bucket predicates partition any candidate list. -/
theorem countP_buckets (l : List Candidate) :
    l.countP (fun c => decide (c.experience ≤ 5)) +
      l.countP (fun c => decide (5 < c.experience ∧ c.experience ≤ 10)) +
      l.countP (fun c => decide (10 < c.experience)) = l.length := by
  induction l with
  | nil => rfl
  | cons d t ih =>
    rw [List.length_cons]
    rcases bucket_partition d with ⟨e1, e2, e3⟩ | ⟨e1, e2, e3⟩ | ⟨e1, e2, e3⟩
    · rw [List.countP_cons_of_pos _ t e1,
        List.countP_cons_of_neg _ t (ne_true_of_eq_false e2),
        List.countP_cons_of_neg _ t (ne_true_of_eq_false e3)]
      omega
    · rw [List.countP_cons_of_neg _ t (ne_true_of_eq_false e1),
        List.countP_cons_of_pos _ t e2,
        List.countP_cons_of_neg _ t (ne_true_of_eq_false e3)]
      omega
    · rw [List.countP_cons_of_neg _ t (ne_true_of_eq_false e1),
        List.countP_cons_of_neg _ t (ne_true_of_eq_false e2),
        List.countP_cons_of_pos _ t e3]
      omega

/-- Claim C8: on every non-empty collection the three experience buckets
partition the records — the first bucket counts `experienceYears ≤ 5`
(so exactly 5 lands there), the second `5 < experienceYears ≤ 10` (so
exactly 10 lands there), the third `10 < experienceYears` — and the three
counts sum to the collection size; the analytics endpoint then reports the
total and the buckets. -/
theorem analytics_buckets_spec (db : List Candidate) (h : db ≠ []) :
    get_analytics db = Except.ok (db.length, experience_ranges db) ∧
    (experience_ranges db).1 = db.countP (fun c => decide (c.experience ≤ 5)) ∧
    (experience_ranges db).2.1 =
      db.countP (fun c => decide (5 < c.experience ∧ c.experience ≤ 10)) ∧
    (experience_ranges db).2.2 = db.countP (fun c => decide (10 < c.experience)) ∧
    (experience_ranges db).1 + (experience_ranges db).2.1 + (experience_ranges db).2.2 =
      db.length ∧
    (∀ c ∈ db,
      c.experience ≤ 5 ∨ (5 < c.experience ∧ c.experience ≤ 10) ∨
        10 < c.experience) := by
  have he : experience_ranges db =
      (db.countP (fun c => decide (c.experience ≤ 5)),
       db.countP (fun c => decide (5 < c.experience ∧ c.experience ≤ 10)),
       db.countP (fun c => decide (10 < c.experience))) := by
    rw [experience_ranges, experience_ranges_aux db (0, 0, 0)]
    simp
  refine ⟨?_, by rw [he], by rw [he], by rw [he], ?_, ?_⟩
  · rw [get_analytics, if_neg]
    simp [h]
  · rw [he]
    exact countP_buckets db
  · intro c _
    omega

/-- Claim C8, witness: the one-record collection whose record has exactly
five years of experience. -/
theorem analytics_buckets_spec_witness :
    get_analytics [sampleCandidate] =
      Except.ok (1, experience_ranges [sampleCandidate]) :=
  (analytics_buckets_spec [sampleCandidate] (by simp)).1

/-! ## Claim C9: id assignment invariant -/

/-- The upload loop preserves the invariant that the stored ids are exactly
`1..N` in insertion order: each appended record receives
`id = len(candidates_db) + 1` at the moment of its append. -/
theorem processUploads_ids :
    ∀ (files : List UploadFile) (db : List Candidate),
      db.map Candidate.id = List.range' 1 db.length →
        ((processUploads db files).1).map Candidate.id =
          List.range' 1 ((processUploads db files).1).length := by
  intro files
  induction files with
  | nil =>
    intro db h
    simpa [processUploads] using h
  | cons f fs ih =>
    intro db h
    rw [processUploads]
    by_cases ha : allowed_file f.filename = true
    · rw [if_pos ha]
      by_cases hp : (pyEndsWith (secure_filename f.filename) ".pdf" ||
          pyEndsWith (secure_filename f.filename) ".docx") = true
      · rw [if_pos hp]
        dsimp only
        apply ih
        rw [List.map_append, h, List.length_append]
        simp [List.range'_concat, Nat.add_comm]
      · rw [if_neg hp]
        exact ih db h
    · rw [if_neg ha]
      exact ih db h

/-- Claim C9: in every state reachable from the fresh empty collection by
uploads and resets, the stored ids are exactly `1..N` in insertion order
(hence unique), and a reset returns the collection to empty, after which
assignment restarts from `1` by the same invariant. -/
theorem ids_spec :
    (∀ ops : List DbOp,
        (runOps ops).map Candidate.id = List.range' 1 (runOps ops).length) ∧
    (∀ ops : List DbOp, ((runOps ops).map Candidate.id).Nodup) ∧
    (∀ db : List Candidate, applyOp db DbOp.reset = []) := by
  have key : ∀ (ops : List DbOp) (db : List Candidate),
      db.map Candidate.id = List.range' 1 db.length →
        (ops.foldl applyOp db).map Candidate.id =
          List.range' 1 (ops.foldl applyOp db).length := by
    intro ops
    induction ops with
    | nil =>
      intro db h
      simpa using h
    | cons op ops ih =>
      intro db h
      rw [List.foldl_cons]
      cases op with
      | upload files => exact ih _ (processUploads_ids files db h)
      | reset => exact ih [] (by simp)
  have hmain : ∀ ops : List DbOp,
      (runOps ops).map Candidate.id = List.range' 1 (runOps ops).length :=
    fun ops => key ops [] (by simp)
  refine ⟨hmain, ?_, fun db => rfl⟩
  intro ops
  rw [hmain ops]
  exact List.nodup_range' 1 (runOps ops).length 1 (by norm_num)

/-! ## Claim C10: `.doc` uploads pass the filter but are silently skipped

The proof tracks the last character of the filename: an extension whose
lowercase form is `doc` ends in a character that lowercases to `c`, every
stage of `secure_filename` preserves that final character, and a string
ending in it can end neither in `.pdf` nor in `.docx`. -/

theorem getLast?_cons_of_some (x c : Char) (l : List Char)
    (h : l.getLast? = some c) : (x :: l).getLast? = some c := by
  cases l with
  | nil => simp at h
  | cons y t => rw [List.getLast?_cons_cons]; exact h

theorem getLast?_append_of_some (c : Char) :
    ∀ (xs l : List Char), l.getLast? = some c → (xs ++ l).getLast? = some c := by
  intro xs
  induction xs with
  | nil => intro l h; simpa using h
  | cons x t ih =>
    intro l h
    rw [List.cons_append]
    exact getLast?_cons_of_some x c _ (ih l h)

theorem exists_concat_of_getLast? (c : Char) :
    ∀ l : List Char, l.getLast? = some c → ∃ l2, l = l2 ++ [c] := by
  intro l
  induction l with
  | nil => intro h; simp at h
  | cons x t ih =>
    intro h
    cases t with
    | nil =>
      rw [List.getLast?_singleton] at h
      simp only [Option.some.injEq] at h
      exact ⟨[], by rw [h, List.nil_append]⟩
    | cons y u =>
      rw [List.getLast?_cons_cons] at h
      obtain ⟨l2, hl2⟩ := ih h
      exact ⟨x :: l2, by rw [List.cons_append, ← hl2]⟩

theorem getLast?_map_fix (f : Char → Char) (c : Char) (hf : f c = c)
    (l : List Char) (h : l.getLast? = some c) :
    (l.map f).getLast? = some c := by
  obtain ⟨l2, rfl⟩ := exists_concat_of_getLast? c l h
  rw [List.map_append]
  simp [hf, List.getLast?_concat]

theorem getLast?_map_inv (f : Char → Char) (y : Char) :
    ∀ l : List Char, (l.map f).getLast? = some y →
      ∃ c0, l.getLast? = some c0 ∧ f c0 = y := by
  intro l
  induction l with
  | nil => intro h; simp at h
  | cons a t ih =>
    intro h
    cases t with
    | nil =>
      simp only [List.map_cons, List.map_nil, List.getLast?_singleton,
        Option.some.injEq] at h
      exact ⟨a, List.getLast?_singleton a, h⟩
    | cons b u =>
      simp only [List.map_cons] at h
      rw [List.getLast?_cons_cons] at h
      rw [← List.map_cons] at h
      obtain ⟨c0, hc0, hfc0⟩ := ih h
      exact ⟨c0, by rw [List.getLast?_cons_cons]; exact hc0, hfc0⟩

theorem joinUnderscore_runsAux_getLast (p : Char → Bool) (c : Char) (hc : p c = true) :
    ∀ (l acc : List Char),
      (joinUnderscore (runsAux p acc (l ++ [c]))).getLast? = some c := by
  intro l
  induction l with
  | nil =>
    intro acc
    rw [List.nil_append]
    simp only [runsAux, hc, if_true]
    simp [joinUnderscore, List.reverse_cons, List.getLast?_concat]
  | cons d l ih =>
    intro acc
    rw [List.cons_append]
    simp only [runsAux]
    by_cases hd : p d = true
    · rw [if_pos hd]
      exact ih (d :: acc)
    · rw [if_neg hd]
      by_cases hacc : acc.isEmpty = true
      · rw [if_pos hacc]
        exact ih []
      · rw [if_neg hacc]
        have hrest := ih []
        cases hrestl : runsAux p [] (l ++ [c]) with
        | nil => rw [hrestl] at hrest; simp [joinUnderscore] at hrest
        | cons g gs =>
          rw [hrestl] at hrest
          rw [joinUnderscore]
          exact getLast?_append_of_some c _ _ (getLast?_cons_of_some '_' c _ hrest)

theorem filter_getLast (p : Char → Bool) (c : Char) (hc : p c = true)
    (l : List Char) (h : l.getLast? = some c) :
    (l.filter p).getLast? = some c := by
  obtain ⟨l2, rfl⟩ := exists_concat_of_getLast? c l h
  have hcl : List.filter p [c] = [c] := by simp [hc]
  rw [List.filter_append, hcl]
  exact List.getLast?_concat _

theorem dropWhile_getLast (p : Char → Bool) (c : Char) (hc : p c = false) :
    ∀ l : List Char, l.getLast? = some c → (l.dropWhile p).getLast? = some c := by
  intro l
  induction l with
  | nil => intro h; simp at h
  | cons a t ih =>
    intro h
    by_cases hpa : p a = true
    · rw [List.dropWhile_cons_of_pos hpa]
      apply ih
      cases t with
      | nil =>
        rw [List.getLast?_singleton] at h
        simp only [Option.some.injEq] at h
        rw [h] at hpa
        rw [hc] at hpa
        cases hpa
      | cons y u => rw [List.getLast?_cons_cons] at h; exact h
    · rw [List.dropWhile_cons_of_neg hpa]
      exact h

theorem trimEnds_getLast (c : Char) (hc : isDotUnderscore c = false)
    (l : List Char) (h : l.getLast? = some c) :
    (secure_filename.trimEnds l).getLast? = some c := by
  have h1 := dropWhile_getLast isDotUnderscore c hc l h
  have h2 : (l.dropWhile isDotUnderscore).reverse.head? = some c := by
    rw [List.head?_reverse]
    exact h1
  cases hm : (l.dropWhile isDotUnderscore).reverse with
  | nil => rw [hm] at h2; simp at h2
  | cons x rest =>
    rw [hm] at h2
    simp only [List.head?_cons, Option.some.injEq] at h2
    subst h2
    rw [secure_filename.trimEnds, hm,
      List.dropWhile_cons_of_neg (ne_true_of_eq_false hc),
      List.getLast?_reverse]
    rfl

/-- The whole of `secure_filename` preserves a final character that is kept
by every stage. -/
theorem secure_filename_getLast (fn : String) (c : Char)
    (h : fn.data.getLast? = some c)
    (h1 : isSpaceChar c = false) (h2 : (c == '/') = false)
    (h3 : keepChar c = true) (h4 : isDotUnderscore c = false) :
    (secure_filename fn).data.getLast? = some c := by
  have hmap : (fn.data.map (fun d => if d == '/' then ' ' else d)).getLast? = some c :=
    getLast?_map_fix _ c (by rw [if_neg (ne_true_of_eq_false h2)]) fn.data h
  obtain ⟨l2, hl2⟩ := exists_concat_of_getLast? c _ hmap
  have hjoin : (joinUnderscore (splitWs
      (fn.data.map (fun d => if d == '/' then ' ' else d)))).getLast? = some c := by
    rw [hl2, splitWs]
    exact joinUnderscore_runsAux_getLast _ c (by simp [h1]) l2 []
  have hfilter := filter_getLast keepChar c h3 _ hjoin
  exact trimEnds_getLast c h4 _ hfilter

/-- A string whose last character differs from the last character of `t`
does not end with `t`. -/
theorem pyEndsWith_false_of_last (s : String) (c : Char)
    (h : s.data.getLast? = some c) (t : String) (x : Char) (init : List Char)
    (ht : t.data = init ++ [x]) (hx : (x == c) = false) :
    pyEndsWith s t = false := by
  rw [pyEndsWith, ht]
  have hs : s.data.reverse.head? = some c := by
    rw [List.head?_reverse]
    exact h
  cases hm : s.data.reverse with
  | nil => rw [hm] at hs; simp at hs
  | cons y rest =>
    rw [hm] at hs
    simp only [List.head?_cons, Option.some.injEq] at hs
    subst hs
    rw [List.reverse_append]
    simp [List.isPrefixOf, hx]

/-- From an extension lowercasing to `doc`, the filename ends in a character
lowercasing to `c`. -/
theorem ext_doc_last (fn : String)
    (hext : pyLower (extAfterLastDot fn) = "doc") :
    ∃ c0, fn.data.getLast? = some c0 ∧ pyLowerChar c0 = 'c' := by
  have hd : (extAfterLastDot fn).data.map pyLowerChar = "doc".data :=
    congrArg String.data hext
  have hlast : ((extAfterLastDot fn).data.map pyLowerChar).getLast? = some 'c' := by
    rw [hd]
    rfl
  obtain ⟨c0, hc0, hfc0⟩ := getLast?_map_inv pyLowerChar 'c' _ hlast
  refine ⟨c0, ?_, hfc0⟩
  -- the extension is the reversal of a takeWhile on the reversed name
  have hth : (fn.data.reverse.takeWhile (fun d => d != '.')).head? = some c0 := by
    have : ((fn.data.reverse.takeWhile (fun d => d != '.')).reverse).getLast? = some c0 := hc0
    rw [List.getLast?_reverse] at this
    exact this
  have hrh : fn.data.reverse.head? = some c0 := by
    cases hl : fn.data.reverse with
    | nil => rw [hl] at hth; simp at hth
    | cons a t =>
      rw [hl, List.takeWhile_cons] at hth
      by_cases hq : (a != '.') = true
      · rw [if_pos hq] at hth
        simpa using hth
      · rw [if_neg hq] at hth
        simp at hth
  rw [← List.head?_reverse]
  exact hrh

/-- The side conditions on the final character, all consequences of the fact
that it lowercases to `c`. -/
theorem lower_c_facts (c : Char) (h : pyLowerChar c = 'c') :
    isSpaceChar c = false ∧ (c == '/') = false ∧ keepChar c = true ∧
      isDotUnderscore c = false ∧ ('f' == c) = false ∧ ('x' == c) = false := by
  by_cases hAZ : 'A' ≤ c ∧ c ≤ 'Z'
  · obtain ⟨hge, hle⟩ := hAZ
    have hne : ∀ d : Char, ¬ ('A' ≤ d ∧ d ≤ 'Z') → c ≠ d := by
      intro d hd he
      exact hd (he ▸ ⟨hge, hle⟩)
    have halnum : c.isAlphanum = true := by
      simp only [Char.le_def] at hge hle
      simp [Char.isAlphanum, Char.isAlpha, Char.isUpper, Char.le_def]
      exact Or.inl (Or.inl ⟨hge, hle⟩)
    refine ⟨?_, ?_, ?_, ?_, ?_, ?_⟩
    · simp only [isSpaceChar, Bool.or_eq_false_iff, beq_eq_false_iff_ne]
      exact ⟨⟨⟨⟨⟨hne ' ' (by decide), hne '\t' (by decide)⟩, hne '\n' (by decide)⟩,
        hne '\r' (by decide)⟩, hne '\x0b' (by decide)⟩, hne '\x0c' (by decide)⟩
    · exact beq_eq_false_iff_ne.mpr (hne '/' (by decide))
    · simp [keepChar, halnum]
    · simp only [isDotUnderscore, Bool.or_eq_false_iff, beq_eq_false_iff_ne]
      exact ⟨hne '.' (by decide), hne '_' (by decide)⟩
    · exact beq_eq_false_iff_ne.mpr (fun he => hne 'f' (by decide) he.symm)
    · exact beq_eq_false_iff_ne.mpr (fun he => hne 'x' (by decide) he.symm)
  · rw [pyLowerChar, if_neg hAZ] at h
    subst h
    refine ⟨by decide, by decide, by decide, by decide, by decide, by decide⟩

/-- Claim C10: a file whose name passes the extension filter with extension
`.doc` (hence not `.pdf` or `.docx`) is silently dropped by the upload loop:
it appends no candidate record and contributes no processed-resumes entry
(the response has no error channel at all), exactly as if the file had not
been sent. -/
theorem doc_skipped_spec (db : List Candidate) (f : UploadFile)
    (fs : List UploadFile)
    (hallow : allowed_file f.filename = true)
    (hext : pyLower (extAfterLastDot f.filename) = "doc") :
    processUploads db (f :: fs) = processUploads db fs := by
  obtain ⟨c0, hlast, hlow⟩ := ext_doc_last f.filename hext
  obtain ⟨h1, h2, h3, h4, hf, hx⟩ := lower_c_facts c0 hlow
  have hsec := secure_filename_getLast f.filename c0 hlast h1 h2 h3 h4
  have hpdf : pyEndsWith (secure_filename f.filename) ".pdf" = false :=
    pyEndsWith_false_of_last _ c0 hsec ".pdf" 'f' ['.', 'p', 'd'] rfl hf
  have hdocx : pyEndsWith (secure_filename f.filename) ".docx" = false :=
    pyEndsWith_false_of_last _ c0 hsec ".docx" 'x' ['.', 'd', 'o', 'c'] rfl hx
  rw [processUploads, if_pos hallow]
  dsimp only
  rw [hpdf, hdocx]
  simp

/-- Claim C10, witness: uploading the single file `x.doc` leaves the
collection empty and reports nothing processed. -/
theorem doc_skipped_spec_witness :
    processUploads [] [{ filename := "x.doc", content := "text" }] = ([], []) :=
  doc_skipped_spec [] { filename := "x.doc", content := "text" } []
    (by decide) (by decide)

end ResumeSorter
